import Mathlib

/-!
Verification of the SNN-to-MCU parameter export pipeline
(`source/tools/SNN2MCU.py`): the fixed-point quantizer
`snn2mcu_value_cuantization`, the parameter-table extractor
`snn2mcu_param_dict_extractor`, and the memory-artifact encoders
`snn2mcu_weights`, `snn2mcu_thresholds`, `snn2mcu_leakages`.

Embedding conventions:
- Python floats are modelled as exact rationals (`ℚ`).
- Python ints are `ℤ` (bit widths) or `ℕ` (indices, counts).
- `int(q)` on a float is truncation toward zero (`int_trunc`).
- A parameter tensor is a matrix `List (List ℚ)` (rows = neurons).
- The Python dict `param_dict` holds keys of three shapes only:
  the per-neuron strings `'l<layer>_n<nid>_w'`, `'model_architecture'`
  and `'number_of_layers'`.  The string keys `'l<layer>_n<nid>_w'` are
  in bijection with the pairs `(layer, nid)`, so the dict is modelled
  as an insertion-ordered association list over `ℕ × ℕ` plus two
  dedicated fields; Python dicts preserve insertion order and an
  update keeps the key's position, which `dictAppend` reproduces.
- Code that can raise (KeyError / IndexError on `re.findall(...)[0]`)
  returns `Option`, with `none` for the raised exception.
-/

/-- Truncation toward zero of a rational, the meaning of Python `int()`
applied to a float. -/
def int_trunc (q : ℚ) : ℤ :=
  if q < 0 then -⌊-q⌋ else ⌊q⌋

/-- `snn2mcu_value_cuantization` (SNN2MCU.py lines 7-29): if negatives are
not allowed, clamp negative inputs to `0.0`; otherwise reserve one bit
(`bits -= 1`).  Returns `int(2**bits * float_value)`. -/
def snn2mcu_value_cuantization (number_of_bits : ℤ) (float_value : ℚ)
    (negatives_allowed : Bool := false) : ℤ :=
  match negatives_allowed with
  | false => int_trunc ((2 : ℚ) ^ number_of_bits *
      (if 0 > float_value then (0 : ℚ) else float_value))
  | true => int_trunc ((2 : ℚ) ^ (number_of_bits - 1) * float_value)

/-! ### Parameter-name parsing

`int(re.findall(r'\d+', name)[0])`: the layer index is the first maximal
run of decimal digits in the name; if the name has no digit the indexing
`[0]` raises `IndexError`. -/

/-- First maximal run of decimal digits appearing in a character list. -/
def firstDigitRun : List Char → Option (List Char)
  | [] => none
  | c :: rest =>
    if c.isDigit then some (c :: rest.takeWhile Char.isDigit)
    else firstDigitRun rest

/-- Decimal value of a digit run. -/
def digitsToNat (l : List Char) : ℕ :=
  l.foldl (fun a c => 10 * a + (c.toNat - 48)) 0

/-- Layer index extracted from a parameter name, `none` when the name
contains no decimal digit (Python raises `IndexError`). -/
def parseLayer (name : List Char) : Option ℕ :=
  (firstDigitRun name).map digitsToNat

/-- Whether `pat` is a prefix of `s` (over characters). -/
def charsStartWith : List Char → List Char → Bool
  | [], _ => true
  | _ :: _, [] => false
  | a :: as, b :: bs => a == b && charsStartWith as bs

/-- Whether `pat` occurs as a contiguous substring of `s`
(Python `pat in s`). -/
def charsContain (pat : List Char) : List Char → Bool
  | [] => pat.isEmpty
  | c :: rest => charsStartWith pat (c :: rest) || charsContain pat rest

/-- Python `"weight" in name`. -/
def hasWeightName (name : List Char) : Bool :=
  charsContain "weight".data name

/-! ### The parameter dictionary -/

/-- Parameter tensors: a matrix, rows = neurons, row entries = incoming
synapse weights. -/
abbrev Tensor := List (List ℚ)

/-- The per-neuron part of `param_dict`: an insertion-ordered association
list from `(layer, neuron_id)` (standing for the Python string key
`'l<layer>_n<neuron_id>_w'`) to the neuron's weight list. -/
abbrev WDict := List ((ℕ × ℕ) × List ℚ)

/-- Python `param_dict[key]` for a per-neuron key: first (and only)
binding of the key, `none` on `KeyError`. -/
def wlookup (k : ℕ × ℕ) : WDict → Option (List ℚ)
  | [] => none
  | (k', v) :: d => if k' = k then some v else wlookup k d

/-- `try: param_dict[key].append(v) except: param_dict[key] = [v]` —
append to the key's list if the key is bound (keeping its position, as a
Python dict update does), otherwise bind the key at the end (insertion
order). -/
def dictAppend (d : WDict) (k : ℕ × ℕ) (v : ℚ) : WDict :=
  match wlookup k d with
  | some _ => d.map (fun p => if p.1 = k then (p.1, p.2 ++ [v]) else p)
  | none => d ++ [(k, [v])]

/-- The extractor's mutable state while walking `named_parameters()`:
the per-neuron bindings and the `'model_architecture'` entry (absent
until layer 1's neuron 0 is seen). -/
structure ExtState where
  d : WDict
  ma : Option (List ℕ)

/-- The final Parameter Table returned by the extractor. -/
structure ParamTable where
  weights : WDict
  model_architecture : List ℕ
  number_of_layers : ℕ

/-- One step of the neuron loop (`for neuron in param`), at neuron index
`nid` of layer `layer`: seed `model_architecture` when
`1 == layer and 0 == neuron_id`, then append every weight of the neuron
to its key. -/
def procNeuron (layer nid : ℕ) (neuron : List ℚ) (st : ExtState) : ExtState :=
  let st1 : ExtState :=
    if layer = 1 ∧ nid = 0 then { st with ma := some [neuron.length] } else st
  { st1 with d := neuron.foldl (fun d w => dictAppend d (layer, nid) w) st1.d }

/-- The body of the neuron loop over a whole weight tensor, neuron ids in
iteration order. -/
def procWeightTensor (layer : ℕ) (rows : Tensor) (st : ExtState) : ExtState :=
  (rows.enum).foldl (fun s p => procNeuron layer p.1 p.2 s) st

/-- Processing one `(name, param)` entry: parse the layer index from the
name (IndexError -> `none`), and if the name contains `"weight"`, walk
the tensor and then append `len(param)` to `model_architecture`
(KeyError -> `none` when that entry does not exist yet). -/
def procParam (st : ExtState) (name : List Char) (rows : Tensor) :
    Option ExtState :=
  match parseLayer name with
  | none => none
  | some layer =>
    if hasWeightName name then
      let st2 := procWeightTensor layer rows st
      match st2.ma with
      | none => none
      | some l => some { st2 with ma := some (l ++ [rows.length]) }
    else some st

/-- The `for name, param in model.named_parameters()` loop; any raised
exception aborts the whole extraction. -/
def extractWalk (st : ExtState) : List (List Char × Tensor) → Option ExtState
  | [] => some st
  | e :: rest =>
    match procParam st e.1 e.2 with
    | none => none
    | some st' => extractWalk st' rest

/-- `snn2mcu_param_dict_extractor` (SNN2MCU.py lines 31-89): walk the
named parameters, set `number_of_layers`, then synthesize the input
layer: for `n in range(model_architecture[0])` append the constant
weight `0.9` under key `l0_n<n>_w`. -/
def snn2mcu_param_dict_extractor (params : List (List Char × Tensor)) :
    Option ParamTable :=
  match extractWalk ⟨[], none⟩ params with
  | none => none
  | some st =>
    match st.ma with
    | none => none   -- KeyError on param_dict['model_architecture']
    | some ma =>
      match ma with
      | [] => none   -- IndexError on model_architecture[0] (unreachable)
      | a0 :: _ =>
        some ⟨(List.range a0).foldl (fun d n => dictAppend d (0, n) (0.9 : ℚ)) st.d,
              ma, ma.length⟩

/-! ### Memory encoders

Each encoder builds one artifact string: an accumulator is grown inside
the layer/neuron loops, the trailing separator is removed by Python's
`string_memory[:-1]`, and a closing delimiter is appended.  The file
content is the concatenation of everything written to the file. -/

/-- Python `s[:-1]` on a string: drop the last character (identity on
the empty string). -/
def strDropLast (s : String) : String := ⟨s.data.dropLast⟩

/-- The neuron loop of `snn2mcu_weights` for one layer `l`, over the
neuron indices `ns`: look up each neuron's weight list (KeyError ->
`none`) and append `str(quantized) + ','` for each weight. -/
def weightsNeuronLoop (d : WDict) (f : ℚ → String) (l : ℕ) :
    List ℕ → String → Option String
  | [], s => some s
  | n :: ns, s =>
    match wlookup (l, n) d with
    | none => none
    | some ws =>
      weightsNeuronLoop d f l ns (ws.foldl (fun t w => t ++ f w ++ ",") s)

/-- The layer loop of `snn2mcu_weights`, over the layer indices `ls`:
read `model_architecture[l]` (IndexError -> `none`) and run the neuron
loop over `range` of it. -/
def weightsLayerLoop (pd : ParamTable) (f : ℚ → String) :
    List ℕ → String → Option String
  | [], s => some s
  | l :: ls, s =>
    match pd.model_architecture.get? l with
    | none => none
    | some cnt =>
      match weightsNeuronLoop pd.weights f l (List.range cnt) s with
      | none => none
      | some s' => weightsLayerLoop pd f ls s'

/-- `snn2mcu_weights` (SNN2MCU.py lines 92-125): the file content written
for the weights artifact.  Starts from `'\x7b'`, loops layers
`0..number_of_layers-1`, neurons `0..model_architecture[l]-1`, weights of
`param_dict['l<l>_n<n>_w']`, emitting
`str(snn2mcu_value_cuantization(precision, w, negatives_allowed)) + ','`;
then drops the trailing comma and appends `'\x7d'`. -/
def snn2mcu_weights (pd : ParamTable) (precision : ℤ)
    (negatives_allowed : Bool := false) : Option String :=
  (weightsLayerLoop pd
      (fun w => toString (snn2mcu_value_cuantization precision w negatives_allowed))
      (List.range pd.number_of_layers) "\x7b").map
    (fun s => strDropLast s ++ "\x7d")

/-- The layer loop shared by `snn2mcu_thresholds` and `snn2mcu_leakages`:
per neuron of each layer append `cstr + ' '`, where `cstr` is the
derived constant's decimal string. -/
def constNeuronLoop (ma : List ℕ) (cstr : String) :
    List ℕ → String → Option String
  | [], s => some s
  | l :: ls, s =>
    match ma.get? l with
    | none => none
    | some cnt =>
      constNeuronLoop ma cstr ls
        ((List.range cnt).foldl (fun t _ => t ++ cstr ++ " ") s)

/-- The two header lines written by the thresholds and leakages
encoders. -/
def coeHeader : String :=
  "memory_initialization_radix=10;\nmemory_initialization_vector="

/-- `snn2mcu_thresholds` (SNN2MCU.py lines 127-151): header, then per
neuron `str(int((2**precision) - 1)) + ' '`, with the trailing space
dropped and `';'` appended. -/
def snn2mcu_thresholds (pd : ParamTable) (precision : ℤ) : Option String :=
  (constNeuronLoop pd.model_architecture
      (toString (int_trunc ((2 : ℚ) ^ precision - 1)))
      (List.range pd.number_of_layers) "").map
    (fun s => coeHeader ++ strDropLast s ++ ";")

/-- `snn2mcu_leakages` (SNN2MCU.py lines 153-177): header, then per
neuron `str(int(2**precision / 100)) + ' '` (Python true division), with
the trailing space dropped and `';'` appended. -/
def snn2mcu_leakages (pd : ParamTable) (precision : ℤ) : Option String :=
  (constNeuronLoop pd.model_architecture
      (toString (int_trunc ((2 : ℚ) ^ precision / 100)))
      (List.range pd.number_of_layers) "").map
    (fun s => coeHeader ++ strDropLast s ++ ";")

/-! ### Specification-side descriptions of the artifacts -/

/-- The weights of one layer in the encoder's enumeration order:
neurons `0..cnt-1`, each neuron's stored list in order. -/
def enumNeuronWeights (d : WDict) (l : ℕ) : List ℕ → Option (List ℚ)
  | [] => some []
  | n :: ns => do
    let ws ← wlookup (l, n) d
    let rest ← enumNeuronWeights d l ns
    pure (ws ++ rest)

/-- The full weight enumeration over the layer indices `ls`. -/
def enumLayerWeights (pd : ParamTable) : List ℕ → Option (List ℚ)
  | [] => some []
  | l :: ls => do
    let cnt ← pd.model_architecture.get? l
    let ws ← enumNeuronWeights pd.weights l (List.range cnt)
    let rest ← enumLayerWeights pd ls
    pure (ws ++ rest)

/-- All weights of the table in the fixed nested order replayed by
`snn2mcu_weights`: layers `0..number_of_layers-1`, neurons
`0..model_architecture[l]-1`, weights in stored order. -/
def enumWeights (pd : ParamTable) : Option (List ℚ) :=
  enumLayerWeights pd (List.range pd.number_of_layers)

/-- Separator-joined list of strings: `joinSep sep [a, b, c] =
a ++ sep ++ b ++ sep ++ c`, with no leading or trailing separator. -/
def joinSep (sep : String) : List String → String
  | [] => ""
  | [a] => a
  | a :: b :: rest => a ++ sep ++ joinSep sep (b :: rest)

/-- The number of neurons the constant encoders visit: layers
`0..number_of_layers-1`, each contributing `model_architecture[l]`. -/
def totalNeurons (pd : ParamTable) : ℕ :=
  ((List.range pd.number_of_layers).map
    (fun l => pd.model_architecture.getD l 0)).sum

/-! ### Auxiliary definitions for the theorems: canonical dictionary
shapes, well-formedness predicates, and concrete evaluation inputs -/

/-- `n` copies of `cstr ++ sep` in a row. -/
def repeatChunk (cstr sep : String) : ℕ → String
  | 0 => ""
  | n + 1 => cstr ++ sep ++ repeatChunk cstr sep n

/-- One `str(quantized) ++ ','` chunk per weight, in order. -/
def chunkOf (f : ℚ → String) : List ℚ → String
  | [] => ""
  | w :: ws => f w ++ "," ++ chunkOf f ws

/-- The spec's boundary network: one hidden layer of 2 neurons with 3
inputs, weights `[[0.1, 0.2, 0.3], [0.4, 0.5, 0.6]]`, as extracted into
a Parameter Table (synthetic input layer included). -/
def demoTable : ParamTable :=
  ⟨[((1, 0), [(0.1 : ℚ), 0.2, 0.3]), ((1, 1), [(0.4 : ℚ), 0.5, 0.6]),
    ((0, 0), [(0.9 : ℚ)]), ((0, 1), [(0.9 : ℚ)]), ((0, 2), [(0.9 : ℚ)])],
   [3, 2], 2⟩

/-- The bindings the neuron loop creates for one tensor of layer `l`,
starting at neuron id `j`: one binding per row, in row order. -/
def layerEntries (l : ℕ) : ℕ → Tensor → WDict
  | _, [] => []
  | j, row :: rest => ((l, j), row) :: layerEntries l (j + 1) rest

/-- The bindings the whole walk creates for consecutive layers starting
at layer `l`. -/
def entriesFrom : ℕ → List Tensor → WDict
  | _, [] => []
  | l, M :: Ms => layerEntries l 0 M ++ entriesFrom (l + 1) Ms

/-- The weight tensors form a fully-connected chain: starting fan-in
`c ≥ 1`, each matrix nonempty with all rows of the current fan-in, and
the next fan-in is the current row count. -/
def chainedFrom : ℕ → List Tensor → Bool
  | _, [] => true
  | c, M :: Ms =>
    decide (1 ≤ c) && !M.isEmpty && M.all (fun row => row.length == c) &&
      chainedFrom M.length Ms

/-- The entries' parsed layer indices are consecutive starting at `j`. -/
def layersFrom : ℕ → List (List Char × Tensor) → Bool
  | _, [] => true
  | j, e :: rest => (parseLayer e.1 == some j) && layersFrom (j + 1) rest

/-- A two-hidden-layer chained input with an interspersed non-weight
entry, used to evaluate the extractor theorems. -/
def demoParams2 : List (List Char × Tensor) :=
  [("fc1.weight".data, [[(0.1 : ℚ), 0.2, 0.3], [(0.4 : ℚ), 0.5, 0.6]]),
   ("lif1.beta".data, []),
   ("fc2.weight".data, [[(0.7 : ℚ), 0.8]])]

/-- The Parameter Table the extractor builds from `demoParams2`. -/
def demoTable2 : ParamTable :=
  ⟨[((1, 0), [(0.1 : ℚ), 0.2, 0.3]), ((1, 1), [(0.4 : ℚ), 0.5, 0.6]),
    ((2, 0), [(0.7 : ℚ), 0.8]),
    ((0, 0), [(0.9 : ℚ)]), ((0, 1), [(0.9 : ℚ)]), ((0, 2), [(0.9 : ℚ)])],
   [3, 2, 1], 3⟩

/-- An input in which a weight tensor carries layer index 0: extraction
succeeds, yet the layer-0 binding `l0_n0_w` ends up holding the stored
layer-0 weight with `0.9` appended, not a single `0.9`. -/
def cexLayer0Params : List (List Char × Tensor) :=
  [("fc1.weight".data, [[(1 : ℚ) / 2, 1 / 2]]),
   ("fc0.weight".data, [[(1 : ℚ) / 4]])]

/-- The Parameter Table the extractor builds from `cexLayer0Params`. -/
def cexLayer0Table : ParamTable :=
  ⟨[((1, 0), [(1 : ℚ) / 2, 1 / 2]), ((0, 0), [(1 : ℚ) / 4, 0.9]),
    ((0, 1), [(0.9 : ℚ)])], [2, 1, 1], 3⟩

/-- A minimal one-layer input and its extracted table. -/
def demoParams1 : List (List Char × Tensor) :=
  [("fc1.weight".data, [[(1 : ℚ) / 2]])]

/-- The Parameter Table the extractor builds from `demoParams1`. -/
def demoTable1 : ParamTable :=
  ⟨[((1, 0), [(1 : ℚ) / 2]), ((0, 0), [(0.9 : ℚ)])], [1, 1], 2⟩

/-! ### Claims C1 and C2: the quantizer -/

/-- Claim C1: for every bit width `b ≥ 1` and every value `v`,
`quantize(b, v, false)` returns `⌊max v 0 * 2 ^ b⌋`: negative inputs are
clamped to `0.0` before scaling, the full `b` bits of scaling are used,
and the scaled value is truncated to an integer. -/
theorem quantize_unsigned_floor (b : ℤ) (v : ℚ) (_hb : 1 ≤ b) :
    snn2mcu_value_cuantization b v false = ⌊max v 0 * (2 : ℚ) ^ b⌋ := by
  unfold snn2mcu_value_cuantization int_trunc
  rcases lt_or_le v 0 with hv | hv
  · simp only [hv, max_eq_right hv.le, if_pos, gt_iff_lt]
    norm_num
  · have h2 : (0 : ℚ) ≤ (2 : ℚ) ^ b * v :=
      mul_nonneg (zpow_pos (by norm_num) b).le hv
    simp only [max_eq_left hv, not_lt.mpr hv, gt_iff_lt, if_neg, not_lt.mpr h2,
      mul_comm v ((2 : ℚ) ^ b)]
    simp [not_lt.mpr hv, not_lt.mpr h2]

/-- Witness for C1 at `b = 3`, `v = -7/10`: the negative input is clamped,
so the result is `⌊max (-7/10) 0 * 2 ^ 3⌋ = 0`. -/
theorem quantize_unsigned_floor_eval :
    snn2mcu_value_cuantization 3 (-(7 : ℚ) / 10) false = 0 := by
  have h := quantize_unsigned_floor 3 (-(7 : ℚ) / 10) (by norm_num)
  rw [h, show max (-(7 : ℚ) / 10) 0 = 0 from max_eq_right (by norm_num)]
  norm_num

/-- Counterexample to claim C2 as stated: at `b = 2`, `v = -1/4` the code
returns `int(2 ** 1 * -0.25) = int(-0.5) = 0` (truncation toward zero),
while the claimed `⌊-0.25 * 2 ^ (2 - 1)⌋` is `-1`. -/
theorem quantize_signed_floor_cex :
    snn2mcu_value_cuantization 2 (-(1 : ℚ) / 4) true ≠
      ⌊-(1 : ℚ) / 4 * (2 : ℚ) ^ ((2 : ℤ) - 1)⌋ := by
  norm_num [snn2mcu_value_cuantization, int_trunc]

/-- Claim C2 (amended): for every bit width `b ≥ 2` and every value `v`,
`quantize(b, v, true)` returns `v * 2 ^ (b - 1)` truncated toward zero
(`⌊⬝⌋` for `v ≥ 0`, `⌈⬝⌉` for `v < 0`), with no clamping, wraparound or
saturation; in particular `quantize(5, -0.5, true) = -8`. -/
theorem quantize_signed_trunc (b : ℤ) (v : ℚ) (_hb : 2 ≤ b) :
    (0 ≤ v → snn2mcu_value_cuantization b v true = ⌊v * (2 : ℚ) ^ (b - 1)⌋) ∧
    (v < 0 → snn2mcu_value_cuantization b v true = ⌈v * (2 : ℚ) ^ (b - 1)⌉) := by
  unfold snn2mcu_value_cuantization int_trunc
  constructor
  · intro hv
    have h2 : (0 : ℚ) ≤ (2 : ℚ) ^ (b - 1) * v :=
      mul_nonneg (zpow_pos (by norm_num) (b - 1)).le hv
    simp [not_lt.mpr h2, mul_comm v ((2 : ℚ) ^ (b - 1))]
  · intro hv
    have h2 : (2 : ℚ) ^ (b - 1) * v < 0 :=
      mul_neg_of_pos_of_neg (zpow_pos (by norm_num) (b - 1)) hv
    simp only [h2, if_pos, mul_comm v ((2 : ℚ) ^ (b - 1))]
    rw [Int.floor_neg]
    ring

/-- Witness for C2 (amended) at `b = 5`, `v = -1/2`, the spec's
negative-domain scenario: the result is `-8` (here truncation and floor
agree because the scaled value is the integer `-8`). -/
theorem quantize_signed_trunc_eval :
    snn2mcu_value_cuantization 5 (-(1 : ℚ) / 2) true = -8 := by
  have h := (quantize_signed_trunc 5 (-(1 : ℚ) / 2) (by norm_num)).2 (by norm_num)
  rw [h, show -(1 : ℚ) / 2 * (2 : ℚ) ^ ((5 : ℤ) - 1) = ((-8 : ℤ) : ℚ) by norm_num]
  exact Int.ceil_intCast (-8)

/-! ### String and loop helper lemmas -/

/-- Dropping the final character of `s ++ t` when `t` is a single
character gives back `s` (Python `(s + t)[:-1] == s`). -/
theorem strDropLast_append_char (s t : String) (c : Char) (h : t.data = [c]) :
    strDropLast (s ++ t) = s := by
  apply String.ext
  simp [strDropLast, h]

theorem repeatChunk_add (cstr sep : String) (m n : ℕ) :
    repeatChunk cstr sep (m + n) =
      repeatChunk cstr sep m ++ repeatChunk cstr sep n := by
  induction m with
  | zero => simp [repeatChunk]
  | succ m ih =>
    have : m + 1 + n = (m + n) + 1 := by omega
    rw [this, repeatChunk, repeatChunk, ih]
    simp [String.append_assoc]

/-- A constant-body fold appends one chunk per visited element. -/
theorem foldl_const_chunk (cstr sep : String) {α : Type} :
    ∀ (ls : List α) (s : String),
      ls.foldl (fun t _ => t ++ cstr ++ sep) s =
        s ++ repeatChunk cstr sep ls.length := by
  intro ls
  induction ls with
  | nil => intro s; simp [repeatChunk]
  | cons a ls ih =>
    intro s
    rw [List.foldl_cons, ih, List.length_cons]
    have : ls.length + 1 = 1 + ls.length := by omega
    rw [this, repeatChunk_add cstr sep 1 ls.length]
    simp [repeatChunk, String.append_assoc]

/-- A nonempty repetition is the separator-joined replication followed by
one trailing separator. -/
theorem repeatChunk_eq_joinSep (cstr sep : String) :
    ∀ n, 1 ≤ n →
      repeatChunk cstr sep n = joinSep sep (List.replicate n cstr) ++ sep := by
  intro n
  induction n with
  | zero => omega
  | succ n ih =>
    intro _
    match n, ih with
    | 0, _ => simp [repeatChunk, joinSep]
    | n + 1, ih =>
      rw [repeatChunk, ih (by omega), List.replicate_succ,
        List.replicate_succ]
      show cstr ++ sep ++ (joinSep sep (cstr :: List.replicate n cstr) ++ sep) = _
      rw [List.replicate_succ] at *
      simp [joinSep, String.append_assoc]

/-- The shared threshold/leakage layer loop succeeds on in-range layer
indices and produces one constant chunk per neuron. -/
theorem constNeuronLoop_eq (ma : List ℕ) (cstr : String) :
    ∀ (ls : List ℕ) (s : String), (∀ l ∈ ls, l < ma.length) →
      constNeuronLoop ma cstr ls s =
        some (s ++ repeatChunk cstr " "
          ((ls.map (fun l => ma.getD l 0)).sum)) := by
  intro ls
  induction ls with
  | nil => intro s _; simp [constNeuronLoop, repeatChunk]
  | cons l ls ih =>
    intro s hin
    have hl : l < ma.length := hin l (List.mem_cons_self l ls)
    have hget : ma.get? l = some (ma.getD l 0) := by
      rw [List.get?_eq_get hl]
      simp [List.getD_eq_getElem?_getD, List.getElem?_eq_getElem hl]
    simp only [constNeuronLoop, hget]
    rw [foldl_const_chunk, List.length_range]
    rw [ih _ (fun x hx => hin x (List.mem_cons_of_mem l hx))]
    rw [List.map_cons, List.sum_cons, repeatChunk_add, String.append_assoc]

/-- `int()` on a value that is already an integer is the identity. -/
theorem int_trunc_intCast (n : ℤ) : int_trunc (n : ℚ) = n := by
  unfold int_trunc
  rcases lt_or_le ((n : ℚ)) 0 with h | h
  · rw [if_pos h, ← Int.cast_neg, Int.floor_intCast]; ring
  · rw [if_neg (not_lt.mpr h), Int.floor_intCast]

/-- The per-neuron constant of the thresholds artifact,
`int((2**b) - 1) = 2^b - 1`, exact for natural bit widths. -/
theorem thresholds_const (b : ℕ) :
    int_trunc ((2 : ℚ) ^ (b : ℤ) - 1) = (2 : ℤ) ^ b - 1 := by
  have h : ((2 : ℚ) ^ (b : ℤ) - 1) = (((2 : ℤ) ^ b - 1 : ℤ) : ℚ) := by
    rw [zpow_natCast]; push_cast; ring
  rw [h, int_trunc_intCast]

/-- The per-neuron constant of the leakages artifact: Python's
`int(2**b / 100)` (true division, modelled exactly) equals the exact
integer quotient `2^b / 100`. -/
theorem leakages_const (b : ℕ) :
    int_trunc ((2 : ℚ) ^ (b : ℤ) / 100) = ((2 ^ b / 100 : ℕ) : ℤ) := by
  have hpos : (0 : ℚ) ≤ (2 : ℚ) ^ (b : ℤ) / 100 := by positivity
  have hfl := Rat.floor_intCast_div_natCast ((2 : ℤ) ^ b) 100
  unfold int_trunc
  rw [if_neg (not_lt.mpr hpos), zpow_natCast]
  have hq : ((2 : ℚ) ^ b / 100) = ((((2 : ℤ) ^ b : ℤ) : ℚ) / ((100 : ℕ) : ℚ)) := by
    push_cast; ring
  rw [hq, hfl]
  rw [show ((2 : ℤ) ^ b) = (((2 ^ b : ℕ) : ℤ)) by push_cast; ring]
  exact (Int.ofNat_ediv (2 ^ b) 100).symm

/-! ### Claims C6 and C7: the thresholds and leakages artifacts -/

/-- Claim C6: for every Parameter Table (whose architecture list covers
`number_of_layers` entries) with at least one neuron and every bit width
`b`, the thresholds artifact is exactly the two header lines followed by
one decimal `2^b - 1` per neuron of each layer in layer-then-neuron
order, space-separated, with a terminating `';'`. -/
theorem thresholds_artifact_format (pd : ParamTable) (b : ℕ)
    (hlen : pd.number_of_layers ≤ pd.model_architecture.length)
    (hone : 1 ≤ totalNeurons pd) :
    snn2mcu_thresholds pd (b : ℤ) =
      some (coeHeader ++
        joinSep " " (List.replicate (totalNeurons pd)
          (toString ((2 : ℤ) ^ b - 1))) ++ ";") := by
  unfold snn2mcu_thresholds
  rw [thresholds_const,
    constNeuronLoop_eq _ _ _ _
      (fun l hl => lt_of_lt_of_le (List.mem_range.mp hl) hlen),
    Option.map_some']
  have hsum : ((List.range pd.number_of_layers).map
      (fun l => pd.model_architecture.getD l 0)).sum = totalNeurons pd := rfl
  rw [hsum, repeatChunk_eq_joinSep _ _ _ hone, String.empty_append,
    strDropLast_append_char _ " " ' ' rfl]

/-- Witness for C6: the spec's end-to-end scenario, architecture
`[3, 2, 1]` and 4 bits: six space-separated occurrences of `15`. -/
theorem thresholds_artifact_format_eval :
    snn2mcu_thresholds ⟨[], [3, 2, 1], 3⟩ (4 : ℤ) =
      some "memory_initialization_radix=10;\nmemory_initialization_vector=15 15 15 15 15 15;" := by
  have h := thresholds_artifact_format ⟨[], [3, 2, 1], 3⟩ 4 (by decide) (by decide)
  rw [show ((4 : ℕ) : ℤ) = (4 : ℤ) by norm_num] at h
  rw [h]
  rfl

/-- Claim C7: for every Parameter Table (whose architecture list covers
`number_of_layers` entries, with at least one neuron) and every bit
width `b ≥ 1`, every integer emitted into the leakages artifact is
exactly the integer quotient `2^b / 100`, one per neuron, in the same
header/grammar as the thresholds artifact. -/
theorem leakages_artifact_constant (pd : ParamTable) (b : ℕ)
    (_hb : 1 ≤ b)
    (hlen : pd.number_of_layers ≤ pd.model_architecture.length)
    (hone : 1 ≤ totalNeurons pd) :
    snn2mcu_leakages pd (b : ℤ) =
      some (coeHeader ++
        joinSep " " (List.replicate (totalNeurons pd)
          (toString ((2 ^ b / 100 : ℕ) : ℤ))) ++ ";") := by
  unfold snn2mcu_leakages
  rw [leakages_const,
    constNeuronLoop_eq _ _ _ _
      (fun l hl => lt_of_lt_of_le (List.mem_range.mp hl) hlen),
    Option.map_some']
  have hsum : ((List.range pd.number_of_layers).map
      (fun l => pd.model_architecture.getD l 0)).sum = totalNeurons pd := rfl
  rw [hsum, repeatChunk_eq_joinSep _ _ _ hone, String.empty_append,
    strDropLast_append_char _ " " ' ' rfl]

/-- Witness for C7 at architecture `[3, 2, 1]` and 8 bits:
`int(256 / 100) = 2`, six times. -/
theorem leakages_artifact_constant_eval :
    snn2mcu_leakages ⟨[], [3, 2, 1], 3⟩ (8 : ℤ) =
      some "memory_initialization_radix=10;\nmemory_initialization_vector=2 2 2 2 2 2;" := by
  have h := leakages_artifact_constant ⟨[], [3, 2, 1], 3⟩ 8 (by decide) (by decide)
    (by decide)
  rw [show ((8 : ℕ) : ℤ) = (8 : ℤ) by norm_num] at h
  rw [h]
  rfl

/-! ### Claim C4: the weights artifact -/

theorem foldl_chunkOf (f : ℚ → String) :
    ∀ (ws : List ℚ) (s : String),
      ws.foldl (fun t w => t ++ f w ++ ",") s = s ++ chunkOf f ws := by
  intro ws
  induction ws with
  | nil => intro s; simp [chunkOf]
  | cons w ws ih =>
    intro s
    rw [List.foldl_cons, ih, chunkOf]
    simp [String.append_assoc]

theorem chunkOf_append (f : ℚ → String) (xs ys : List ℚ) :
    chunkOf f (xs ++ ys) = chunkOf f xs ++ chunkOf f ys := by
  induction xs with
  | nil => simp [chunkOf]
  | cons x xs ih =>
    rw [List.cons_append, chunkOf, chunkOf, ih]
    simp [String.append_assoc]

theorem weightsNeuronLoop_eq (d : WDict) (f : ℚ → String) (l : ℕ) :
    ∀ (ns : List ℕ) (s : String),
      weightsNeuronLoop d f l ns s =
        (enumNeuronWeights d l ns).map (fun ws => s ++ chunkOf f ws) := by
  intro ns
  induction ns with
  | nil => intro s; simp [weightsNeuronLoop, enumNeuronWeights, chunkOf]
  | cons n ns ih =>
    intro s
    cases hw : wlookup (l, n) d with
    | none => simp [weightsNeuronLoop, enumNeuronWeights, hw]
    | some ws =>
      simp only [weightsNeuronLoop, enumNeuronWeights, hw, foldl_chunkOf,
        Option.bind_eq_bind, Option.some_bind, ih]
      cases henum : enumNeuronWeights d l ns with
      | none => simp
      | some rest =>
        simp [chunkOf_append, String.append_assoc]

theorem weightsLayerLoop_eq (pd : ParamTable) (f : ℚ → String) :
    ∀ (ls : List ℕ) (s : String),
      weightsLayerLoop pd f ls s =
        (enumLayerWeights pd ls).map (fun ws => s ++ chunkOf f ws) := by
  intro ls
  induction ls with
  | nil => intro s; simp [weightsLayerLoop, enumLayerWeights, chunkOf]
  | cons l ls ih =>
    intro s
    cases hcnt : pd.model_architecture[l]? with
    | none =>
      simp [weightsLayerLoop, enumLayerWeights, List.get?_eq_getElem?, hcnt]
    | some cnt =>
      simp only [weightsLayerLoop, enumLayerWeights, List.get?_eq_getElem?,
        hcnt, Option.bind_eq_bind, Option.some_bind, weightsNeuronLoop_eq]
      cases hen : enumNeuronWeights pd.weights l (List.range cnt) with
      | none => simp
      | some ws =>
        simp only [Option.map_some', Option.some_bind, ih]
        cases henum : enumLayerWeights pd ls with
        | none => simp
        | some rest =>
          simp [chunkOf_append, String.append_assoc]

theorem joinSep_cons2 (sep a b : String) (rest : List String) :
    joinSep sep (a :: b :: rest) = a ++ sep ++ joinSep sep (b :: rest) := rfl

theorem chunkOf_eq_joinSep (f : ℚ → String) :
    ∀ (ws : List ℚ), ws ≠ [] →
      chunkOf f ws = joinSep "," (ws.map f) ++ "," := by
  intro ws
  induction ws with
  | nil => intro h; exact absurd rfl h
  | cons w ws ih =>
    intro _
    cases ws with
    | nil => simp [chunkOf, joinSep]
    | cons w2 ws2 =>
      rw [chunkOf, ih (by simp)]
      simp only [List.map_cons]
      rw [joinSep_cons2]
      simp [String.append_assoc]

/-- Claim C4: for every Parameter Table whose weight enumeration succeeds
and is nonempty, every bit width and every `negatives_allowed` flag,
`snn2mcu_weights` produces exactly an opening brace, the quantized
weights (layers `0..number_of_layers-1`, neurons
`0..model_architecture[l]-1`, weights in stored order — the order fixed
by `enumWeights`) as decimal strings joined by single commas, and a
closing brace, with no trailing comma and no header. -/
theorem weights_artifact_format (pd : ParamTable) (precision : ℤ)
    (negatives_allowed : Bool) (ws : List ℚ)
    (henum : enumWeights pd = some ws) (hne : ws ≠ []) :
    snn2mcu_weights pd precision negatives_allowed =
      some ("\x7b" ++ joinSep ","
        (ws.map (fun w => toString
          (snn2mcu_value_cuantization precision w negatives_allowed)))
        ++ "\x7d") := by
  unfold snn2mcu_weights
  rw [weightsLayerLoop_eq,
    show enumLayerWeights pd (List.range pd.number_of_layers) = some ws
      from henum,
    Option.map_some', Option.map_some', chunkOf_eq_joinSep _ _ hne,
    ← String.append_assoc, strDropLast_append_char _ "," ',' rfl]

/-- Witness for C4: the spec's boundary scenario at 8 bits, negatives
disallowed: the artifact starts with `(0.9 -> 230)` entries for the three
synthetic input neurons and continues in neuron-then-weight order. -/
theorem weights_artifact_format_eval :
    snn2mcu_weights demoTable 8 false =
      some "\x7b230,230,230,25,51,76,102,128,153\x7d" := by
  have h := weights_artifact_format demoTable 8 false
    [(0.9 : ℚ), 0.9, 0.9, 0.1, 0.2, 0.3, 0.4, 0.5, 0.6] rfl (by simp)
  rw [h]
  have e1 : snn2mcu_value_cuantization 8 (0.9 : ℚ) false = 230 := by
    norm_num [snn2mcu_value_cuantization, int_trunc]
  have e2 : snn2mcu_value_cuantization 8 (0.1 : ℚ) false = 25 := by
    norm_num [snn2mcu_value_cuantization, int_trunc]
  have e3 : snn2mcu_value_cuantization 8 (0.2 : ℚ) false = 51 := by
    norm_num [snn2mcu_value_cuantization, int_trunc]
  have e4 : snn2mcu_value_cuantization 8 (0.3 : ℚ) false = 76 := by
    norm_num [snn2mcu_value_cuantization, int_trunc]
  have e5 : snn2mcu_value_cuantization 8 (0.4 : ℚ) false = 102 := by
    norm_num [snn2mcu_value_cuantization, int_trunc]
  have e6 : snn2mcu_value_cuantization 8 (0.5 : ℚ) false = 128 := by
    norm_num [snn2mcu_value_cuantization, int_trunc]
  have e7 : snn2mcu_value_cuantization 8 (0.6 : ℚ) false = 153 := by
    norm_num [snn2mcu_value_cuantization, int_trunc]
  simp only [List.map_cons, List.map_nil, e1, e2, e3, e4, e5, e6, e7]
  rfl

/-! ### Dictionary lemmas -/

theorem wlookup_none_of_forall (k : ℕ × ℕ) :
    ∀ (d : WDict), (∀ p ∈ d, p.1 ≠ k) → wlookup k d = none := by
  intro d
  induction d with
  | nil => intro _; rfl
  | cons p d ih =>
    intro h
    rw [show wlookup k (p :: d) = if p.1 = k then some p.2 else wlookup k d
        from rfl,
      if_neg (h p (List.mem_cons_self p d))]
    exact ih (fun q hq => h q (List.mem_cons_of_mem p hq))

theorem forall_of_wlookup_none (k : ℕ × ℕ) :
    ∀ (d : WDict), wlookup k d = none → ∀ p ∈ d, p.1 ≠ k := by
  intro d
  induction d with
  | nil => intro _ p hp; exact absurd hp (List.not_mem_nil p)
  | cons q d ih =>
    intro h p hp
    rw [show wlookup k (q :: d) = if q.1 = k then some q.2 else wlookup k d
        from rfl] at h
    by_cases hq : q.1 = k
    · rw [if_pos hq] at h; exact absurd h (by simp)
    · rw [if_neg hq] at h
      rcases List.mem_cons.mp hp with rfl | hp'
      · exact hq
      · exact ih h p hp'

theorem wlookup_append_none (k : ℕ × ℕ) :
    ∀ (d d' : WDict), wlookup k d = none →
      wlookup k (d ++ d') = wlookup k d' := by
  intro d
  induction d with
  | nil => intro d' _; rfl
  | cons q d ih =>
    intro d' h
    rw [show wlookup k (q :: d) = if q.1 = k then some q.2 else wlookup k d
        from rfl] at h
    by_cases hq : q.1 = k
    · rw [if_pos hq] at h; exact absurd h (by simp)
    · rw [if_neg hq] at h
      rw [List.cons_append,
        show wlookup k (q :: (d ++ d')) =
          if q.1 = k then some q.2 else wlookup k (d ++ d') from rfl,
        if_neg hq]
      exact ih d' h

theorem dictAppend_fresh (d : WDict) (k : ℕ × ℕ) (v : ℚ)
    (h : wlookup k d = none) : dictAppend d k v = d ++ [(k, [v])] := by
  unfold dictAppend
  rw [h]

/-- Updating the one binding of `k` sitting at the end of the dict. -/
theorem dictAppend_last (d : WDict) (k : ℕ × ℕ) (acc : List ℚ) (v : ℚ)
    (h : wlookup k d = none) :
    dictAppend (d ++ [(k, acc)]) k v = d ++ [(k, acc ++ [v])] := by
  unfold dictAppend
  rw [wlookup_append_none k d [(k, acc)] h,
    show wlookup k [(k, acc)] = some acc by simp [wlookup],
    List.map_append]
  have h1 : d.map (fun p => if p.1 = k then (p.1, p.2 ++ [v]) else p) = d := by
    induction d with
    | nil => rfl
    | cons q d ih =>
      rw [show wlookup k (q :: d) =
          if q.1 = k then some q.2 else wlookup k d from rfl] at h
      by_cases hq : q.1 = k
      · rw [if_pos hq] at h; exact absurd h (by simp)
      · rw [if_neg hq] at h
        rw [List.map_cons, if_neg hq, ih h]
  rw [h1]
  simp

/-- Once the binding of `k` sits at the end, appending more weights
keeps extending that binding. -/
theorem rowFold_extend (k : ℕ × ℕ) :
    ∀ (rest : List ℚ) (d : WDict) (acc : List ℚ), wlookup k d = none →
      rest.foldl (fun d w => dictAppend d k w) (d ++ [(k, acc)]) =
        d ++ [(k, acc ++ rest)] := by
  intro rest
  induction rest with
  | nil => intro d acc h; simp
  | cons w rest ih =>
    intro d acc h
    rw [List.foldl_cons, dictAppend_last d k acc w h, ih d (acc ++ [w]) h]
    simp

/-- Folding the weights of one fresh-keyed neuron appends a single
binding holding exactly that weight list. -/
theorem rowFold_fresh (k : ℕ × ℕ) (row : List ℚ) (hrow : row ≠ []) :
    ∀ (d : WDict), wlookup k d = none →
      row.foldl (fun d w => dictAppend d k w) d = d ++ [(k, row)] := by
  rcases row with _ | ⟨w, rest⟩
  · exact absurd rfl hrow
  intro d hd
  rw [List.foldl_cons, dictAppend_fresh d k w hd, rowFold_extend k rest d [w] hd]
  rfl

/-! ### The extractor on well-formed weight-tensor sequences -/

theorem mem_layerEntries (l : ℕ) :
    ∀ (M : Tensor) (j : ℕ) (p : (ℕ × ℕ) × List ℚ),
      p ∈ layerEntries l j M → p.1.1 = l ∧ j ≤ p.1.2 ∧ p.2 ∈ M := by
  intro M
  induction M with
  | nil => intro j p hp; exact absurd hp (List.not_mem_nil p)
  | cons row rest ih =>
    intro j p hp
    rcases List.mem_cons.mp hp with rfl | hp'
    · exact ⟨rfl, le_refl _, List.mem_cons_self _ _⟩
    · rcases ih (j + 1) p hp' with ⟨h1, h2, h3⟩
      exact ⟨h1, by omega, List.mem_cons_of_mem _ h3⟩

theorem layerEntries_length (l : ℕ) :
    ∀ (M : Tensor) (j : ℕ), (layerEntries l j M).length = M.length := by
  intro M
  induction M with
  | nil => intro j; rfl
  | cons row rest ih => intro j; simp [layerEntries, ih]

/-- The neuron loop does not touch `model_architecture` except through
the layer-1/neuron-0 seeding, so for other layers it is preserved. -/
theorem foldNeurons_ma_of_ne_one (layer : ℕ) (hL : layer ≠ 1) :
    ∀ (ps : List (ℕ × List ℚ)) (st : ExtState),
      (ps.foldl (fun s p => procNeuron layer p.1 p.2 s) st).ma = st.ma := by
  intro ps
  induction ps with
  | nil => intro st; rfl
  | cons p ps ih =>
    intro st
    rw [List.foldl_cons, ih]
    simp [procNeuron, hL]

theorem procWeightTensor_ma_of_ne_one (layer : ℕ) (hL : layer ≠ 1)
    (rows : Tensor) (st : ExtState) :
    (procWeightTensor layer rows st).ma = st.ma :=
  foldNeurons_ma_of_ne_one layer hL rows.enum st

/-- The neuron loop over `enumFrom j` with no seeding (either the layer
is not 1, or `j ≥ 1`) appends exactly the per-row bindings and leaves
`model_architecture` alone. -/
theorem tensorFold_from (layer : ℕ) :
    ∀ (M : Tensor) (j : ℕ) (st : ExtState),
      (layer = 1 → 1 ≤ j) →
      (∀ row ∈ M, row ≠ []) →
      (∀ p ∈ st.d, p.1.1 ≠ layer ∨ p.1.2 < j) →
      (M.enumFrom j).foldl (fun s p => procNeuron layer p.1 p.2 s) st =
        ⟨st.d ++ layerEntries layer j M, st.ma⟩ := by
  intro M
  induction M with
  | nil =>
    intro j st _ _ _
    show st = _
    cases st
    simp [layerEntries]
  | cons row rest ih =>
    intro j st hseed hrows hfresh
    have hne : ¬(layer = 1 ∧ j = 0) := by
      rintro ⟨h1, h0⟩; exact absurd (hseed h1) (by omega)
    have hlk : wlookup (layer, j) st.d = none := by
      apply wlookup_none_of_forall
      intro p hp
      rcases hfresh p hp with h | h
      · intro hk; exact h (by rw [hk])
      · intro hk; rw [hk] at h; exact absurd h (by omega)
    have hstep : procNeuron layer j row st =
        ⟨st.d ++ [((layer, j), row)], st.ma⟩ := by
      simp only [procNeuron, if_neg hne]
      rw [rowFold_fresh (layer, j) row
        (hrows row (List.mem_cons_self _ _)) st.d hlk]
    rw [show List.enumFrom j (row :: rest) =
        (j, row) :: List.enumFrom (j + 1) rest from rfl,
      List.foldl_cons]
    show (List.enumFrom (j + 1) rest).foldl _ (procNeuron layer j row st) = _
    rw [hstep,
      ih (j + 1) ⟨st.d ++ [((layer, j), row)], st.ma⟩
        (fun _ => by omega)
        (fun r hr => hrows r (List.mem_cons_of_mem _ hr))
        (by
          intro p hp
          rcases List.mem_append.mp hp with hp' | hp'
          · rcases hfresh p hp' with h | h
            · exact Or.inl h
            · exact Or.inr (by omega)
          · rcases List.mem_singleton.mp hp' with rfl
            exact Or.inr (Nat.lt_succ_self j))]
    simp [layerEntries, List.append_assoc]

/-- The full neuron loop for layer 1 on a nonempty tensor: seeds
`model_architecture` with neuron 0's fan-in and appends the per-row
bindings. -/
theorem tensorFold_layer1 (row : List ℚ) (rest : Tensor) (st : ExtState)
    (hrows : ∀ r ∈ row :: rest, r ≠ [])
    (hfresh : ∀ p ∈ st.d, p.1.1 ≠ 1) :
    procWeightTensor 1 (row :: rest) st =
      ⟨st.d ++ layerEntries 1 0 (row :: rest), some [row.length]⟩ := by
  have hlk : wlookup (1, 0) st.d = none := by
    apply wlookup_none_of_forall
    intro p hp hk
    exact hfresh p hp (by rw [hk])
  have hstep : procNeuron 1 0 row st =
      ⟨st.d ++ [((1, 0), row)], some [row.length]⟩ := by
    show (⟨List.foldl (fun d w => dictAppend d (1, 0) w)
        (if (1 : ℕ) = 1 ∧ (0 : ℕ) = 0 then
          { st with ma := some [row.length] } else st).d row,
        (if (1 : ℕ) = 1 ∧ (0 : ℕ) = 0 then
          { st with ma := some [row.length] } else st).ma⟩ : ExtState) = _
    rw [if_pos (⟨rfl, rfl⟩ : (1 : ℕ) = 1 ∧ (0 : ℕ) = 0)]
    show (⟨List.foldl (fun d w => dictAppend d (1, 0) w) st.d row,
        some [row.length]⟩ : ExtState) = _
    rw [rowFold_fresh (1, 0) row (hrows row (List.mem_cons_self _ _)) st.d hlk]
  show (List.enum (row :: rest)).foldl _ st = _
  rw [show List.enum (row :: rest) =
      (0, row) :: List.enumFrom 1 rest from rfl,
    List.foldl_cons]
  show (List.enumFrom 1 rest).foldl _ (procNeuron 1 0 row st) = _
  rw [hstep,
    tensorFold_from 1 rest 1 ⟨st.d ++ [((1, 0), row)], some [row.length]⟩
      (fun _ => le_refl 1)
      (fun r hr => hrows r (List.mem_cons_of_mem _ hr))
      (by
        intro p hp
        rcases List.mem_append.mp hp with hp' | hp'
        · exact Or.inl (hfresh p hp')
        · rcases List.mem_singleton.mp hp' with rfl
          exact Or.inr (Nat.lt_succ_self 0))]
  simp [layerEntries, List.append_assoc]

/-- A non-weight entry whose name parses leaves the state untouched. -/
theorem procParam_skip (st : ExtState) (nm : List Char) (rows : Tensor)
    (hw : hasWeightName nm = false) :
    procParam st nm rows = (parseLayer nm).map (fun _ => st) := by
  cases hp : parseLayer nm with
  | none => simp [procParam, hp]
  | some l => simp [procParam, hp, hw]

/-- A successful walk only depends on the weight-named entries. -/
theorem extractWalk_filter :
    ∀ (params : List (List Char × Tensor)) (st st' : ExtState),
      extractWalk st params = some st' →
      extractWalk st (params.filter (fun e => hasWeightName e.1)) = some st' := by
  intro params
  induction params with
  | nil => intro st st' h; exact h
  | cons e rest ih =>
    intro st st' h
    rw [show extractWalk st (e :: rest) =
        match procParam st e.1 e.2 with
        | none => none
        | some st1 => extractWalk st1 rest from rfl] at h
    cases hw : hasWeightName e.1 with
    | true =>
      have hfe : List.filter (fun e => hasWeightName e.1) (e :: rest) =
          e :: List.filter (fun e => hasWeightName e.1) rest := by
        simp [List.filter_cons, hw]
      rw [hfe,
        show extractWalk st (e :: List.filter (fun e => hasWeightName e.1) rest) =
          match procParam st e.1 e.2 with
          | none => none
          | some st1 => extractWalk st1 (List.filter (fun e => hasWeightName e.1) rest)
          from rfl]
      cases hpp : procParam st e.1 e.2 with
      | none => rw [hpp] at h; exact absurd h (by simp)
      | some st1 => rw [hpp] at h; exact ih st1 st' h
    | false =>
      have hfe : List.filter (fun e => hasWeightName e.1) (e :: rest) =
          List.filter (fun e => hasWeightName e.1) rest := by
        simp [List.filter_cons, hw]
      rw [hfe]
      rw [procParam_skip st e.1 e.2 hw] at h
      cases hp : parseLayer e.1 with
      | none => rw [hp] at h; exact absurd h (by simp)
      | some l =>
        rw [hp] at h
        simp only [Option.map_some'] at h
        exact ih st st' h

/-- Every row of every tensor in a chain is nonempty. -/
theorem chainedFrom_rows_ne_nil :
    ∀ (Ms : List Tensor) (c : ℕ), chainedFrom c Ms = true →
      ∀ M ∈ Ms, ∀ row ∈ M, row ≠ [] := by
  intro Ms
  induction Ms with
  | nil => intro c _ M hM; exact absurd hM (List.not_mem_nil M)
  | cons M0 Ms ih =>
    intro c hch M hM row hrow
    rw [show chainedFrom c (M0 :: Ms) =
        (decide (1 ≤ c) && !M0.isEmpty && M0.all (fun row => row.length == c) &&
          chainedFrom M0.length Ms) from rfl] at hch
    simp only [Bool.and_eq_true, List.all_eq_true, beq_iff_eq,
      decide_eq_true_eq] at hch
    rcases hch with ⟨⟨⟨hc, _⟩, hall⟩, hrest⟩
    rcases List.mem_cons.mp hM with rfl | hM'
    · have := hall row hrow
      intro hnil
      rw [hnil] at this
      simp at this
      omega
    · exact ih M0.length hrest M hM' row hrow

/-- Row lengths along a chain follow `model_architecture`: every row of
the `i`-th tensor has length `(c :: fan-outs).getD i`. -/
theorem chainedFrom_row_length :
    ∀ (Ms : List Tensor) (c : ℕ), chainedFrom c Ms = true →
      ∀ (i : ℕ) (h : i < Ms.length), ∀ row ∈ Ms.get ⟨i, h⟩,
        row.length = (c :: Ms.map List.length).getD i 0 := by
  intro Ms
  induction Ms with
  | nil => intro c _ i h; exact absurd h (by simp)
  | cons M0 Ms ih =>
    intro c hch i h row hrow
    rw [show chainedFrom c (M0 :: Ms) =
        (decide (1 ≤ c) && !M0.isEmpty && M0.all (fun row => row.length == c) &&
          chainedFrom M0.length Ms) from rfl] at hch
    simp only [Bool.and_eq_true, List.all_eq_true, beq_iff_eq,
      decide_eq_true_eq] at hch
    rcases hch with ⟨⟨⟨_, _⟩, hall⟩, hrest⟩
    cases i with
    | zero => exact hall row hrow
    | succ i =>
      have hlt : i < Ms.length := by simpa using h
      have := ih M0.length hrest i hlt row (by simpa using hrow)
      simpa using this

/-- The `procParam` equation for a weight-named entry with a parsed
layer. -/
theorem procParam_weight (st : ExtState) (nm : List Char) (rows : Tensor)
    (L : ℕ) (hp : parseLayer nm = some L) (hw : hasWeightName nm = true) :
    procParam st nm rows =
      match (procWeightTensor L rows st).ma with
      | none => none
      | some l =>
        some ⟨(procWeightTensor L rows st).d, some (l ++ [rows.length])⟩ := by
  simp [procParam, hp, hw]

/-- Walking the weight entries of layers `j+1, j+2, ...` (all nonempty
rows, `model_architecture` already seeded) appends the per-row bindings
and the per-layer row counts. -/
theorem walk_weight_tail :
    ∀ (wes : List (List Char × Tensor)) (j : ℕ) (d : WDict) (ma : List ℕ),
      1 ≤ j →
      layersFrom (j + 1) wes = true →
      (∀ e ∈ wes, hasWeightName e.1 = true) →
      (∀ e ∈ wes, ∀ row ∈ e.2, row ≠ []) →
      (∀ p ∈ d, p.1.1 ≤ j) →
      extractWalk ⟨d, some ma⟩ wes =
        some ⟨d ++ entriesFrom (j + 1) (wes.map Prod.snd),
              some (ma ++ wes.map (fun e => e.2.length))⟩ := by
  intro wes
  induction wes with
  | nil =>
    intro j d ma _ _ _ _ _
    simp [extractWalk, entriesFrom]
  | cons e rest ih =>
    intro j d ma hj hlay hwt hrows hbound
    rw [show layersFrom (j + 1) (e :: rest) =
        ((parseLayer e.1 == some (j + 1)) && layersFrom (j + 1 + 1) rest)
        from rfl, Bool.and_eq_true] at hlay
    rcases hlay with ⟨hp, hlay'⟩
    rw [beq_iff_eq] at hp
    have hw : hasWeightName e.1 = true := hwt e (List.mem_cons_self _ _)
    have htens : procWeightTensor (j + 1) e.2 ⟨d, some ma⟩ =
        ⟨d ++ layerEntries (j + 1) 0 e.2, some ma⟩ := by
      show (e.2.enumFrom 0).foldl _ _ = _
      exact tensorFold_from (j + 1) e.2 0 ⟨d, some ma⟩
        (by omega)
        (fun r hr => hrows e (List.mem_cons_self _ _) r hr)
        (fun p hp' => Or.inl (by have := hbound p hp'; omega))
    rw [show extractWalk ⟨d, some ma⟩ (e :: rest) =
        match procParam ⟨d, some ma⟩ e.1 e.2 with
        | none => none
        | some st1 => extractWalk st1 rest from rfl,
      procParam_weight ⟨d, some ma⟩ e.1 e.2 (j + 1) hp hw, htens]
    show extractWalk
      ⟨d ++ layerEntries (j + 1) 0 e.2, some (ma ++ [e.2.length])⟩ rest = _
    rw [ih (j + 1) (d ++ layerEntries (j + 1) 0 e.2) (ma ++ [e.2.length])
      (by omega) hlay'
      (fun q hq => hwt q (List.mem_cons_of_mem _ hq))
      (fun q hq => hrows q (List.mem_cons_of_mem _ hq))
      (by
        intro p hp'
        rcases List.mem_append.mp hp' with h' | h'
        · exact le_trans (hbound p h') (by omega)
        · rcases mem_layerEntries (j + 1) e.2 0 p h' with ⟨h1, _, _⟩
          omega)]
    simp [entriesFrom, List.append_assoc]

/-- The input-layer synthesis loop appends one fresh `[0.9]` binding per
input neuron, in order. -/
theorem synthFold_fresh :
    ∀ (c : ℕ) (d : WDict), (∀ p ∈ d, p.1.1 ≠ 0) →
      (List.range c).foldl (fun d n => dictAppend d (0, n) (0.9 : ℚ)) d =
        d ++ (List.range c).map (fun n => ((0, n), [(0.9 : ℚ)])) := by
  intro c
  induction c with
  | zero => intro d _; simp
  | succ c ih =>
    intro d hd
    rw [List.range_succ, List.foldl_append, ih d hd, List.foldl_cons]
    show dictAppend
      (d ++ (List.range c).map (fun n => ((0, n), [(0.9 : ℚ)]))) (0, c)
      (0.9 : ℚ) = _
    rw [dictAppend_fresh _ _ _
      (wlookup_none_of_forall _ _ (by
        intro p hp
        rcases List.mem_append.mp hp with h' | h'
        · intro hk; exact hd p h' (by rw [hk])
        · rcases List.mem_map.mp h' with ⟨n, hn, rfl⟩
          have : n < c := List.mem_range.mp hn
          intro hk
          rw [Prod.mk.injEq] at hk
          omega))]
    rw [List.map_append, List.append_assoc]
    rfl

theorem mem_entriesFrom :
    ∀ (Ms : List Tensor) (l0 : ℕ) (p : (ℕ × ℕ) × List ℚ),
      p ∈ entriesFrom l0 Ms →
      l0 ≤ p.1.1 ∧ ∃ h : p.1.1 - l0 < Ms.length,
        p.2 ∈ Ms.get ⟨p.1.1 - l0, h⟩ := by
  intro Ms
  induction Ms with
  | nil => intro l0 p hp; exact absurd hp (List.not_mem_nil p)
  | cons M Ms ih =>
    intro l0 p hp
    rcases List.mem_append.mp hp with h' | h'
    · rcases mem_layerEntries l0 M 0 p h' with ⟨h1, _, h3⟩
      refine ⟨le_of_eq h1.symm, ?_⟩
      have h0 : p.1.1 - l0 = 0 := by omega
      rw [h0]
      exact ⟨by simp, h3⟩
    · rcases ih (l0 + 1) p h' with ⟨h1, h2, h3⟩
      refine ⟨by omega, ?_⟩
      have heq : p.1.1 - l0 = (p.1.1 - (l0 + 1)) + 1 := by omega
      rw [heq]
      exact ⟨by simpa using h2, by simpa using h3⟩

/-- Full characterization of the extractor on an input whose
weight-named entries are a fully-connected chain of layers `1..L`:
`model_architecture` is the seed fan-in followed by the per-layer row
counts, `number_of_layers` counts them, and the weight dictionary is the
per-row bindings of every layer followed by the synthesized `[0.9]`
input-layer bindings. -/
theorem extractor_chained_eq
    (params : List (List Char × Tensor))
    (nm1 : List Char) (row1 : List ℚ) (M1tail : Tensor)
    (wrest : List (List Char × Tensor)) (pd : ParamTable)
    (hfil : params.filter (fun e => hasWeightName e.1) =
      (nm1, row1 :: M1tail) :: wrest)
    (hlay : layersFrom 1 ((nm1, row1 :: M1tail) :: wrest) = true)
    (hch : chainedFrom row1.length
      ((row1 :: M1tail) :: wrest.map Prod.snd) = true)
    (hex : snn2mcu_param_dict_extractor params = some pd) :
    pd.model_architecture =
      row1.length :: ((row1 :: M1tail) :: wrest.map Prod.snd).map List.length ∧
    pd.number_of_layers = wrest.length + 2 ∧
    pd.weights =
      entriesFrom 1 ((row1 :: M1tail) :: wrest.map Prod.snd) ++
        (List.range row1.length).map (fun n => ((0, n), [(0.9 : ℚ)])) := by
  have hw1 : hasWeightName nm1 = true := by
    have hm : (nm1, row1 :: M1tail) ∈
        params.filter (fun e => hasWeightName e.1) := by
      rw [hfil]; exact List.mem_cons_self _ _
    exact (List.mem_filter.mp hm).2
  have hlayd := hlay
  rw [show layersFrom 1 ((nm1, row1 :: M1tail) :: wrest) =
      ((parseLayer nm1 == some 1) && layersFrom (1 + 1) wrest) from rfl,
    Bool.and_eq_true] at hlayd
  obtain ⟨hp1b, hlay2⟩ := hlayd
  have hp1 : parseLayer nm1 = some 1 := beq_iff_eq.mp hp1b
  have hformne := chainedFrom_rows_ne_nil
    ((row1 :: M1tail) :: wrest.map Prod.snd) row1.length hch
  have htens1 : procWeightTensor 1 (row1 :: M1tail) ⟨[], none⟩ =
      ⟨layerEntries 1 0 (row1 :: M1tail), some [row1.length]⟩ := by
    have h := tensorFold_layer1 row1 M1tail ⟨[], none⟩
      (hformne _ (List.mem_cons_self _ _))
      (by intro p hp; exact absurd hp (List.not_mem_nil p))
    simpa using h
  have hstep1 : procParam ⟨[], none⟩ nm1 (row1 :: M1tail) =
      some ⟨layerEntries 1 0 (row1 :: M1tail),
            some [row1.length, (row1 :: M1tail).length]⟩ := by
    rw [procParam_weight ⟨[], none⟩ nm1 (row1 :: M1tail) 1 hp1 hw1, htens1]
    rfl
  have hboundM1 : ∀ p ∈ layerEntries 1 0 (row1 :: M1tail),
      p.1.1 ≤ 1 := by
    intro p hp
    rcases mem_layerEntries 1 (row1 :: M1tail) 0 p hp with ⟨h1, _, _⟩
    omega
  have hwalkw : extractWalk ⟨[], none⟩ ((nm1, row1 :: M1tail) :: wrest) =
      some ⟨layerEntries 1 0 (row1 :: M1tail) ++
              entriesFrom 2 (wrest.map Prod.snd),
            some ([row1.length, (row1 :: M1tail).length] ++
              wrest.map (fun e => e.2.length))⟩ := by
    rw [show extractWalk ⟨[], none⟩ ((nm1, row1 :: M1tail) :: wrest) =
        match procParam ⟨[], none⟩ nm1 (row1 :: M1tail) with
        | none => none
        | some st1 => extractWalk st1 wrest from rfl,
      hstep1]
    show extractWalk ⟨layerEntries 1 0 (row1 :: M1tail),
      some [row1.length, (row1 :: M1tail).length]⟩ wrest = _
    exact walk_weight_tail wrest 1 (layerEntries 1 0 (row1 :: M1tail))
      [row1.length, (row1 :: M1tail).length] (le_refl 1) hlay2
      (by
        intro q hq
        have hm : q ∈ params.filter (fun e => hasWeightName e.1) := by
          rw [hfil]; exact List.mem_cons_of_mem _ hq
        exact (List.mem_filter.mp hm).2)
      (by
        intro q hq row hrow
        exact hformne q.2
          (List.mem_cons_of_mem _ (List.mem_map_of_mem Prod.snd hq))
          row hrow)
      hboundM1
  cases hwalk : extractWalk ⟨[], none⟩ params with
  | none => simp [snn2mcu_param_dict_extractor, hwalk] at hex
  | some st =>
    have h1 := extractWalk_filter params _ st hwalk
    rw [hfil, hwalkw] at h1
    have hst := (Option.some.inj h1).symm
    subst hst
    rw [show snn2mcu_param_dict_extractor params =
        match extractWalk ⟨[], none⟩ params with
        | none => none
        | some st =>
          match st.ma with
          | none => none
          | some ma =>
            match ma with
            | [] => none
            | a0 :: _ =>
              some ⟨(List.range a0).foldl
                  (fun d n => dictAppend d (0, n) (0.9 : ℚ)) st.d,
                ma, ma.length⟩ from rfl, hwalk] at hex
    have hpd := (Option.some.inj hex).symm
    subst hpd
    refine ⟨?_, ?_, ?_⟩
    · show ([row1.length, (row1 :: M1tail).length] ++
        wrest.map (fun e => e.2.length)) = _
      simp [List.map_map, Function.comp]
    · show ([row1.length, (row1 :: M1tail).length] ++
        wrest.map (fun e => e.2.length)).length = _
      simp
    · show (List.range row1.length).foldl
        (fun d n => dictAppend d (0, n) (0.9 : ℚ))
        (layerEntries 1 0 (row1 :: M1tail) ++
          entriesFrom 2 (wrest.map Prod.snd)) = _
      rw [synthFold_fresh row1.length _
        (by
          intro p hp
          rcases List.mem_append.mp hp with h' | h'
          · rcases mem_layerEntries 1 (row1 :: M1tail) 0 p h' with ⟨h1', _, _⟩
            omega
          · rcases mem_entriesFrom (wrest.map Prod.snd) 2 p h' with ⟨h1', _⟩
            omega)]
      rw [show entriesFrom 1 ((row1 :: M1tail) :: wrest.map Prod.snd) =
        layerEntries 1 0 (row1 :: M1tail) ++
          entriesFrom 2 (wrest.map Prod.snd) from rfl]

theorem layerEntries_filter_self (l : ℕ) :
    ∀ (M : Tensor) (j : ℕ),
      (layerEntries l j M).filter (fun p => p.1.1 == l) =
        layerEntries l j M := by
  intro M j
  rw [List.filter_eq_self]
  intro p hp
  rcases mem_layerEntries l M j p hp with ⟨h1, _, _⟩
  simp [h1]

theorem layerEntries_filter_ne (l l' : ℕ) (hne : l' ≠ l) :
    ∀ (M : Tensor) (j : ℕ),
      (layerEntries l' j M).filter (fun p => p.1.1 == l) = [] := by
  intro M j
  rw [List.filter_eq_nil_iff]
  intro p hp
  rcases mem_layerEntries l' M j p hp with ⟨h1, _, _⟩
  simp [h1, hne]

theorem entriesFrom_filter_lt (l : ℕ) :
    ∀ (Ms : List Tensor) (l0 : ℕ), l < l0 →
      (entriesFrom l0 Ms).filter (fun p => p.1.1 == l) = [] := by
  intro Ms l0 hl
  rw [List.filter_eq_nil_iff]
  intro p hp
  rcases mem_entriesFrom Ms l0 p hp with ⟨h1, _⟩
  simp only [beq_iff_eq]
  omega

theorem entriesFrom_filter (l : ℕ) :
    ∀ (Ms : List Tensor) (l0 : ℕ) (h0 : l0 ≤ l) (h1 : l < l0 + Ms.length),
      (entriesFrom l0 Ms).filter (fun p => p.1.1 == l) =
        layerEntries l 0 (Ms.get ⟨l - l0, by omega⟩) := by
  intro Ms
  induction Ms with
  | nil =>
    intro l0 h0 h1
    exfalso
    rw [List.length_nil] at h1
    omega
  | cons M Ms ih =>
    intro l0 h0 h1
    rw [List.length_cons] at h1
    rw [show entriesFrom l0 (M :: Ms) =
        layerEntries l0 0 M ++ entriesFrom (l0 + 1) Ms from rfl,
      List.filter_append]
    rcases Nat.eq_or_lt_of_le h0 with heq | hlt
    · subst heq
      rw [layerEntries_filter_self, entriesFrom_filter_lt _ _ _ (by omega),
        List.append_nil]
      simp [Nat.sub_self]
    · rw [layerEntries_filter_ne l l0 (by omega), List.nil_append,
        ih (l0 + 1) (by omega) (by omega)]
      have h2 : l - l0 = (l - (l0 + 1)) + 1 := by omega
      simp [h2]

theorem getD_cons_of_pos (a : ℕ) (t : List ℕ) (l : ℕ) (hl : 1 ≤ l) :
    (a :: t).getD l 0 = t.getD (l - 1) 0 := by
  cases l with
  | zero => omega
  | succ n => simp [List.getD_eq_getElem?_getD, List.getElem?_cons_succ]

/-! ### Claim C3: the structural invariant of extracted tables -/

/-- Claim C3: for every input parameter sequence whose weight-named
tensors appear in increasing layer order `1..L` (one rectangular matrix
per layer, nonempty with positive fan-in, each matrix's column count
equal to the previous matrix's row count — `chainedFrom`), the Parameter
Table built by the extractor satisfies
`len(model_architecture) = number_of_layers`, and for every layer
`l ≥ 1` the number of neuron weight-vectors recorded for layer `l`
equals `model_architecture[l]` and every such vector has length
`model_architecture[l-1]`. -/
theorem extractor_structural_invariant
    (params : List (List Char × Tensor))
    (nm1 : List Char) (row1 : List ℚ) (M1tail : Tensor)
    (wrest : List (List Char × Tensor)) (pd : ParamTable)
    (hfil : params.filter (fun e => hasWeightName e.1) =
      (nm1, row1 :: M1tail) :: wrest)
    (hlay : layersFrom 1 ((nm1, row1 :: M1tail) :: wrest) = true)
    (hch : chainedFrom row1.length
      ((row1 :: M1tail) :: wrest.map Prod.snd) = true)
    (hex : snn2mcu_param_dict_extractor params = some pd) :
    pd.model_architecture.length = pd.number_of_layers ∧
    ∀ l, 1 ≤ l → l < pd.number_of_layers →
      (pd.weights.filter (fun p => p.1.1 == l)).length =
        pd.model_architecture.getD l 0 ∧
      ∀ p ∈ pd.weights, p.1.1 = l →
        p.2.length = pd.model_architecture.getD (l - 1) 0 := by
  obtain ⟨hma, hnl, hwts⟩ :=
    extractor_chained_eq params nm1 row1 M1tail wrest pd hfil hlay hch hex
  constructor
  · rw [hma, hnl]; simp
  · intro l hl1 hl2
    rw [hnl] at hl2
    have hMslen : ((row1 :: M1tail) :: wrest.map Prod.snd).length =
        wrest.length + 1 := by simp
    have hlt : l - 1 < ((row1 :: M1tail) :: wrest.map Prod.snd).length := by
      omega
    constructor
    · rw [hwts, List.filter_append,
        entriesFrom_filter l ((row1 :: M1tail) :: wrest.map Prod.snd) 1 hl1
          (by omega),
        show ((List.range row1.length).map
            (fun n => ((0, n), [(0.9 : ℚ)]))).filter
              (fun p => p.1.1 == l) = [] from by
          rw [List.filter_eq_nil_iff]
          intro p hp
          rcases List.mem_map.mp hp with ⟨n, _, rfl⟩
          simp only [beq_iff_eq]
          omega,
        List.append_nil, layerEntries_length, hma,
        getD_cons_of_pos _ _ _ hl1,
        List.getD_eq_getElem?_getD,
        List.getElem?_eq_getElem (show l - 1 <
          (((row1 :: M1tail) :: wrest.map Prod.snd).map List.length).length
          by simpa using hlt)]
      simp only [Option.getD_some, List.getElem_map, List.get_eq_getElem]
    · intro p hp hpl
      rw [hwts] at hp
      rcases List.mem_append.mp hp with h' | h'
      · rcases mem_entriesFrom ((row1 :: M1tail) :: wrest.map Prod.snd) 1 p h'
          with ⟨hge, hidx, hmem⟩
        have hrl := chainedFrom_row_length
          ((row1 :: M1tail) :: wrest.map Prod.snd) row1.length hch
          (p.1.1 - 1) hidx p.2 hmem
        rw [hpl] at hrl
        rw [hma]
        exact hrl
      · rcases List.mem_map.mp h' with ⟨n, _, rfl⟩
        exfalso
        simp at hpl
        omega

/-- Witness for C3 on `demoParams2` (architecture `[3, 2, 1]`): the
architecture list covers all layers and the per-layer neuron counts
match. -/
theorem extractor_structural_invariant_eval :
    demoTable2.model_architecture.length = demoTable2.number_of_layers ∧
    (demoTable2.weights.filter (fun p => p.1.1 == 1)).length =
      demoTable2.model_architecture.getD 1 0 ∧
    (demoTable2.weights.filter (fun p => p.1.1 == 2)).length =
      demoTable2.model_architecture.getD 2 0 := by
  have h := extractor_structural_invariant demoParams2 "fc1.weight".data
    [(0.1 : ℚ), 0.2, 0.3] [[(0.4 : ℚ), 0.5, 0.6]]
    [("fc2.weight".data, [[(0.7 : ℚ), 0.8]])] demoTable2 rfl rfl rfl rfl
  exact ⟨h.1, (h.2 1 (by decide) (by decide)).1,
    (h.2 2 (by decide) (by decide)).1⟩

/-! ### Claim C5: the synthetic input layer -/

/-- Counterexample to claim C5 as stated: extraction succeeds on
`cexLayer0Params`, but the layer-0 neuron-0 weight vector has length 2
(`[0.25, 0.9]`), not length 1 with the single constant `0.9`. -/
theorem layer0_synthesis_cex :
    snn2mcu_param_dict_extractor cexLayer0Params = some cexLayer0Table ∧
    wlookup (0, 0) cexLayer0Table.weights = some [(1 : ℚ) / 4, 0.9] ∧
    [(1 : ℚ) / 4, (0.9 : ℚ)].length ≠ 1 :=
  ⟨rfl, rfl, by decide⟩

/-- Claim C5 (amended): for every input parameter sequence whose
weight-named tensors form the chained layers `1..L` (as in C3) and from
which extraction succeeds, the resulting table's synthetic layer 0 holds
exactly `model_architecture[0]` neuron bindings, appended after all
main-walk bindings (synthesized after the tensor walk completes), each
owning the single-weight vector `[0.9]`; and `model_architecture[0]`
equals the fan-in of the first hidden layer's first neuron. -/
theorem layer0_synthesis_amended
    (params : List (List Char × Tensor))
    (nm1 : List Char) (row1 : List ℚ) (M1tail : Tensor)
    (wrest : List (List Char × Tensor)) (pd : ParamTable)
    (hfil : params.filter (fun e => hasWeightName e.1) =
      (nm1, row1 :: M1tail) :: wrest)
    (hlay : layersFrom 1 ((nm1, row1 :: M1tail) :: wrest) = true)
    (hch : chainedFrom row1.length
      ((row1 :: M1tail) :: wrest.map Prod.snd) = true)
    (hex : snn2mcu_param_dict_extractor params = some pd) :
    pd.model_architecture.getD 0 0 = row1.length ∧
    pd.weights =
      entriesFrom 1 ((row1 :: M1tail) :: wrest.map Prod.snd) ++
        (List.range (pd.model_architecture.getD 0 0)).map
          (fun n => ((0, n), [(0.9 : ℚ)])) := by
  obtain ⟨hma, _, hwts⟩ :=
    extractor_chained_eq params nm1 row1 M1tail wrest pd hfil hlay hch hex
  have h0 : pd.model_architecture.getD 0 0 = row1.length := by
    rw [hma]; rfl
  exact ⟨h0, by rw [hwts, h0]⟩

/-- Witness for C5 (amended) on `demoParams2`: three synthetic `[0.9]`
bindings after the main entries, and `model_architecture[0] = 3`, the
fan-in of layer 1's neuron 0. -/
theorem layer0_synthesis_amended_eval :
    demoTable2.model_architecture.getD 0 0 = 3 ∧
    demoTable2.weights =
      entriesFrom 1 [[[(0.1 : ℚ), 0.2, 0.3], [(0.4 : ℚ), 0.5, 0.6]],
        [[(0.7 : ℚ), 0.8]]] ++
        (List.range 3).map (fun n => ((0, n), [(0.9 : ℚ)])) := by
  have h := layer0_synthesis_amended demoParams2 "fc1.weight".data
    [(0.1 : ℚ), 0.2, 0.3] [[(0.4 : ℚ), 0.5, 0.6]]
    [("fc2.weight".data, [[(0.7 : ℚ), 0.8]])] demoTable2 rfl rfl rfl rfl
  exact ⟨h.1, h.2⟩

/-! ### Claim C9: no fan-in consistency check -/

/-- Counterexample to claim C9 as stated: on a single layer-1 weight
tensor whose two rows have lengths 2 and 1 (an inconsistent fan-in),
extraction does not fail: it returns a table storing both ragged rows
unchanged. -/
theorem fanin_not_detected_cex :
    snn2mcu_param_dict_extractor [("fc1.weight".data, [[1, 2], [3]])] =
      some ⟨[((1, 0), [(1 : ℚ), 2]), ((1, 1), [(3 : ℚ)]),
             ((0, 0), [(0.9 : ℚ)]), ((0, 1), [(0.9 : ℚ)])], [2, 2], 2⟩ ∧
    ([(1 : ℚ), 2].length = 2 ∧ [(3 : ℚ)].length = 1) :=
  ⟨rfl, rfl, rfl⟩

/-- Claim C9 (amended): the extractor performs no fan-in consistency
check: for every single-entry input whose name parses to layer 1 and is
weight-named, with nonempty rows of arbitrary (possibly disagreeing)
lengths, extraction succeeds and stores every row exactly as given,
seeding `model_architecture` from neuron 0 alone.  (The spec's
InconsistentFanIn detection is a requirement on reimplementations only;
the source trusts the tensors.) -/
theorem fanin_no_detection (nm : List Char) (row1 : List ℚ) (Mtail : Tensor)
    (hp : parseLayer nm = some 1) (hw : hasWeightName nm = true)
    (hrows : ∀ r ∈ row1 :: Mtail, r ≠ []) :
    snn2mcu_param_dict_extractor [(nm, row1 :: Mtail)] =
      some ⟨layerEntries 1 0 (row1 :: Mtail) ++
              (List.range row1.length).map (fun n => ((0, n), [(0.9 : ℚ)])),
            [row1.length, Mtail.length + 1], 2⟩ := by
  have htens : procWeightTensor 1 (row1 :: Mtail) ⟨[], none⟩ =
      ⟨layerEntries 1 0 (row1 :: Mtail), some [row1.length]⟩ := by
    have h := tensorFold_layer1 row1 Mtail ⟨[], none⟩ hrows
      (by intro p hp'; exact absurd hp' (List.not_mem_nil p))
    simpa using h
  have hstep : procParam ⟨[], none⟩ nm (row1 :: Mtail) =
      some ⟨layerEntries 1 0 (row1 :: Mtail),
            some [row1.length, Mtail.length + 1]⟩ := by
    rw [procParam_weight ⟨[], none⟩ nm (row1 :: Mtail) 1 hp hw, htens]
    rfl
  rw [show snn2mcu_param_dict_extractor [(nm, row1 :: Mtail)] =
      match extractWalk ⟨[], none⟩ [(nm, row1 :: Mtail)] with
      | none => none
      | some st =>
        match st.ma with
        | none => none
        | some ma =>
          match ma with
          | [] => none
          | a0 :: _ =>
            some ⟨(List.range a0).foldl
                (fun d n => dictAppend d (0, n) (0.9 : ℚ)) st.d,
              ma, ma.length⟩ from rfl,
    show extractWalk ⟨[], none⟩ [(nm, row1 :: Mtail)] =
      match procParam ⟨[], none⟩ nm (row1 :: Mtail) with
      | none => none
      | some st1 => extractWalk st1 [] from rfl,
    hstep]
  show (some (⟨(List.range row1.length).foldl
      (fun d n => dictAppend d (0, n) (0.9 : ℚ))
      (layerEntries 1 0 (row1 :: Mtail)),
    [row1.length, Mtail.length + 1], 2⟩ : ParamTable) : Option ParamTable) = _
  rw [synthFold_fresh row1.length _ (by
    intro p hp'
    rcases mem_layerEntries 1 (row1 :: Mtail) 0 p hp' with ⟨h1, _, _⟩
    omega)]

/-- Witness for C9 (amended) on the ragged input
`[[1, 2], [3]]`: the table stores the length-2 and length-1 vectors side
by side. -/
theorem fanin_no_detection_eval :
    snn2mcu_param_dict_extractor [("fc1.weight".data, [[1, 2], [3]])] =
      some ⟨[((1, 0), [(1 : ℚ), 2]), ((1, 1), [(3 : ℚ)]),
             ((0, 0), [(0.9 : ℚ)]), ((0, 1), [(0.9 : ℚ)])], [2, 2], 2⟩ := by
  have h := fanin_no_detection "fc1.weight".data [(1 : ℚ), 2] [[(3 : ℚ)]]
    (by decide) (by decide) (by intro r hr; fin_cases hr <;> simp)
  exact h.trans rfl

/-! ### Claim C10: the layer-1 seeding requirement -/

/-- If the walk starts with no `model_architecture` entry and ends with
one, the first weight-named entry parsed to layer 1 (otherwise the
append on `model_architecture` would have raised before any seeding). -/
theorem extractWalk_seed_origin :
    ∀ (params : List (List Char × Tensor)) (st st' : ExtState),
      st.ma = none → extractWalk st params = some st' → st'.ma ≠ none →
      ∃ e rest, params.filter (fun q => hasWeightName q.1) = e :: rest ∧
        parseLayer e.1 = some 1 := by
  intro params
  induction params with
  | nil =>
    intro st st' hma hw hne
    rw [show extractWalk st [] = some st from rfl] at hw
    rcases Option.some.inj hw with rfl
    exact absurd hma hne
  | cons a rest ih =>
    intro st st' hma hw hne
    rw [show extractWalk st (a :: rest) =
        match procParam st a.1 a.2 with
        | none => none
        | some st1 => extractWalk st1 rest from rfl] at hw
    cases hweight : hasWeightName a.1 with
    | false =>
      rw [procParam_skip st a.1 a.2 hweight] at hw
      cases hp : parseLayer a.1 with
      | none => rw [hp] at hw; exact absurd hw (by simp)
      | some L =>
        rw [hp] at hw
        simp only [Option.map_some'] at hw
        have hfe : (a :: rest).filter (fun q => hasWeightName q.1) =
            rest.filter (fun q => hasWeightName q.1) := by
          simp [List.filter_cons, hweight]
        rw [hfe]
        exact ih st st' hma hw hne
    | true =>
      cases hp : parseLayer a.1 with
      | none => simp [procParam, hp] at hw
      | some L =>
        by_cases hL : L = 1
        · subst hL
          have hfe : (a :: rest).filter (fun q => hasWeightName q.1) =
              a :: rest.filter (fun q => hasWeightName q.1) := by
            simp [List.filter_cons, hweight]
          exact ⟨a, rest.filter (fun q => hasWeightName q.1), hfe, hp⟩
        · have hma2 : (procWeightTensor L a.2 st).ma = none := by
            rw [procWeightTensor_ma_of_ne_one L hL a.2 st, hma]
          rw [procParam_weight st a.1 a.2 L hp hweight, hma2] at hw
          exact absurd hw (by simp)

/-- Claim C10: extraction returns a Parameter Table only if the input
has at least one weight-named parameter and the first such parameter
parses to layer index 1 (otherwise `model_architecture` is never
created, and the unconditional append / read of it raises, so no table
with a missing or unseeded `model_architecture` escapes to the
encoders). -/
theorem extractor_requires_first_layer_one
    (params : List (List Char × Tensor)) (pd : ParamTable)
    (hex : snn2mcu_param_dict_extractor params = some pd) :
    ∃ e rest, params.filter (fun q => hasWeightName q.1) = e :: rest ∧
      parseLayer e.1 = some 1 := by
  cases hwalk : extractWalk ⟨[], none⟩ params with
  | none => simp [snn2mcu_param_dict_extractor, hwalk] at hex
  | some st =>
    cases hma : st.ma with
    | none => simp [snn2mcu_param_dict_extractor, hwalk, hma] at hex
    | some ma =>
      exact extractWalk_seed_origin params ⟨[], none⟩ st rfl hwalk
        (by rw [hma]; simp)

/-- Witness for C10 on `demoParams1`: extraction succeeds, and indeed
the first (only) weight-named entry parses to layer 1. -/
theorem extractor_requires_first_layer_one_eval :
    demoParams1.filter (fun q => hasWeightName q.1) =
      [("fc1.weight".data, [[(1 : ℚ) / 2]])] ∧
    parseLayer "fc1.weight".data = some 1 := by
  obtain ⟨e, rest, h1, h2⟩ :=
    extractor_requires_first_layer_one demoParams1 demoTable1 rfl
  have hf : demoParams1.filter (fun q => hasWeightName q.1) =
      [("fc1.weight".data, [[(1 : ℚ) / 2]])] := rfl
  rw [hf] at h1
  cases h1
  exact ⟨hf, h2⟩

/-! ### Claim C8: names without digits abort extraction -/

/-- Any entry (weight-named or not) whose name has no digit run makes
the whole walk fail: the layer parse happens before the weight filter. -/
theorem extractWalk_digitless :
    ∀ (params : List (List Char × Tensor)) (st : ExtState)
      (e : List Char × Tensor), e ∈ params → parseLayer e.1 = none →
      extractWalk st params = none := by
  intro params
  induction params with
  | nil => intro st e he _; exact absurd he (List.not_mem_nil e)
  | cons a rest ih =>
    intro st e he hnd
    rw [show extractWalk st (a :: rest) =
        match procParam st a.1 a.2 with
        | none => none
        | some st1 => extractWalk st1 rest from rfl]
    rcases List.mem_cons.mp he with rfl | he'
    · rw [show procParam st e.1 e.2 = none from by simp [procParam, hnd]]
    · cases hpp : procParam st a.1 a.2 with
      | none => rfl
      | some st1 => exact ih st1 e he' hnd

/-- Claim C8: for every input parameter sequence containing at least one
`(name, tensor)` entry whose name contains no decimal digit run,
extraction fails fast (the Python IndexError on
`re.findall(r'\d+', name)[0]`) and returns no partial Parameter Table;
this applies to every entry, including non-weight entries that would
otherwise be skipped, because the layer index is parsed from each name
before the `"weight"` filter is applied. -/
theorem extractor_digitless_fails
    (params : List (List Char × Tensor)) (e : List Char × Tensor)
    (he : e ∈ params) (hnd : parseLayer e.1 = none) :
    snn2mcu_param_dict_extractor params = none := by
  have hw := extractWalk_digitless params ⟨[], none⟩ e he hnd
  simp [snn2mcu_param_dict_extractor, hw]

/-- Witness for C8 on a digitless non-weight entry: extraction returns
nothing at all. -/
theorem extractor_digitless_fails_eval :
    snn2mcu_param_dict_extractor [("membrane.bias".data, [])] = none :=
  extractor_digitless_fails _ ("membrane.bias".data, [])
    (List.mem_singleton.mpr rfl) (by decide)
